import Mathlib

/-!
Verification of the fastText training/inference orchestration engine
(`src/fasttext.cc`) against its natural-language specification.

The embedding is shallow: floating-point `real` values are modelled as
rationals (`ℚ`), vectors as lists of rationals, matrices as lists of rows,
and the per-thread random generator as an externally supplied sequence of
draws.  External collaborators (`Args`, `Dictionary`, `Matrix`, `Model`)
are modelled only to the extent the orchestration code observes them.
-/

set_option autoImplicit false

namespace FastTextSpec

/-! ### Vectors and matrices (collaborator `Vector` / `Matrix`) -/

/-- A dense vector, as the list of its components. -/
abbrev Vec := List ℚ

/-- `Vector::zero` on a vector of dimension `dim`. -/
def vecZero (dim : Nat) : Vec := List.replicate dim 0

/-- Componentwise addition (`Vector::addRow` adds a matrix row in place). -/
def vecAdd (a b : Vec) : Vec := List.zipWith (· + ·) a b

/-- `Vector::mul`: scale every component. -/
def vecScale (c : ℚ) (v : Vec) : Vec := v.map (fun x => c * x)

/-- A dense matrix as a list of rows. -/
abbrev Mat := List Vec

/-- Row access `matrix row i` (out-of-range access is undefined in the C++;
we default to the empty row). -/
def matRow (m : Mat) (i : Nat) : Vec := m.getD i []

/-! ### `FastText::getVector`

```cpp
void FastText::getVector(Vector &vec, const std::string &word) {
    const std::vector<int32_t> &ngrams = dict_->getNgrams(word);
    vec.zero();
    for (auto it = ngrams.begin(); it != ngrams.end(); ++it) {
        vec.addRow(*input_, *it);
    }
    if (ngrams.size() > 0) {
        vec.mul(1.0 / ngrams.size());
    }
}
```
The dictionary lookup `dict_->getNgrams(word)` is a collaborator call; the
embedding takes the resulting n-gram id list as input. -/
def getVector (input : Mat) (dim : Nat) (ngrams : List Nat) : Vec :=
  let s := ngrams.foldl (fun v i => vecAdd v (matRow input i)) (vecZero dim)
  if ngrams.length > 0 then vecScale (1 / (ngrams.length : ℚ)) s else s

/-! ### Corpus partitioner (`FastText::trainThread`, line 250)

```cpp
utils::seek(ifs, threadId * utils::size(ifs) / args_->thread);
```
Integer arithmetic on `int64_t`; all quantities involved are non-negative
and far below 2^63 for any real file, so `Nat` division models it. -/
def partitionOffset (totalSize T i : Nat) : Nat := i * totalSize / T

/-! ### `FastText::supervised`

```cpp
if (labels.size() == 0 || line.size() == 0) return;
std::uniform_int_distribution<> uniform(0, labels.size() - 1);
int32_t i = uniform(model.rng);
model.update(line, labels[i], lr);
```
An optimizer update `model.update(input, target, lr)` is recorded as the
pair `(input, target)`; the uniform draw is the externally supplied index
`draw` (the distribution guarantees `draw < labels.length`). -/
def Update := List Nat × Nat

deriving instance DecidableEq for Update

def supervised (line labels : List Nat) (draw : Nat) : List Update :=
  if labels.length = 0 ∨ line.length = 0 then []
  else [(line, labels.getD draw 0)]

/-! ### `FastText::cbow`

```cpp
std::uniform_int_distribution<> uniform(1, args_->ws);
for (int32_t w = 0; w < line.size(); w++) {
    int32_t boundary = uniform(model.rng);
    bow.clear();
    for (int32_t c = -boundary; c <= boundary; c++) {
        if (c != 0 && w + c >= 0 && w + c < line.size()) {
            const std::vector<int32_t> &ngrams = dict_->getNgrams(line[w + c]);
            bow.insert(bow.end(), ngrams.cbegin(), ngrams.cend());
        }
    }
    model.update(bow, line[w], lr);
}
```
`ngr` models `dict_->getNgrams` on a token id; `radii` is the sequence of
per-position boundary draws from `uniform(1, ws)`.  The inner loop over
`c = -boundary .. boundary`, appending the n-grams of each admissible
context position, is the flat-map below (iteration order preserved:
`k = 0 .. 2*boundary` corresponds to `c = k - boundary`). -/
def bowList (ngr : Nat → List Nat) (line : List Nat) (w b : Nat) : List Nat :=
  (List.range (2 * b + 1)).flatMap (fun k =>
    let c : Int := (k : Int) - (b : Int)
    if c ≠ 0 ∧ 0 ≤ (w : Int) + c ∧ (w : Int) + c < (line.length : Int) then
      ngr (line.getD ((w : Int) + c).toNat 0)
    else [])

def cbow (ngr : Nat → List Nat) (line : List Nat) (radii : List Nat) :
    List Update :=
  (List.range line.length).map (fun w =>
    (bowList ngr line w (radii.getD w 1), line.getD w 0))

/-! ### `FastText::skipgram`

```cpp
for (int32_t w = 0; w < line.size(); w++) {
    int32_t boundary = uniform(model.rng);
    const std::vector<int32_t> &ngrams = dict_->getNgrams(line[w]);
    for (int32_t c = -boundary; c <= boundary; c++) {
        if (c != 0 && w + c >= 0 && w + c < line.size()) {
            model.update(ngrams, line[w + c], lr);
        }
    }
}
```
One update per admissible context position. -/
def skipgramAt (ngr : Nat → List Nat) (line : List Nat) (w b : Nat) :
    List Update :=
  (List.range (2 * b + 1)).flatMap (fun k =>
    let c : Int := (k : Int) - (b : Int)
    if c ≠ 0 ∧ 0 ≤ (w : Int) + c ∧ (w : Int) + c < (line.length : Int) then
      [(ngr (line.getD w 0), line.getD ((w : Int) + c).toNat 0)]
    else [])

def skipgram (ngr : Nat → List Nat) (line : List Nat) (radii : List Nat) :
    List Update :=
  (List.range line.length).flatMap (fun w =>
    skipgramAt ngr line w (radii.getD w 1))

/-! ### `FastText::test`

```cpp
int32_t nexamples = 0, nlabels = 0;
double precision = 0.0;
while (in.peek() != EOF) {
    dict_->getLine(in, line, labels, model_->rng);
    dict_->addNgrams(line, args_->wordNgrams);
    if (labels.size() > 0 && line.size() > 0) {
        model_->predict(line, k, modelPredictions);
        for (...) if (std::find(labels..., it->second) != labels.end()) precision += 1.0;
        nexamples++;
        nlabels += labels.size();
    }
}
std::cout << "P@" << k << ": " << precision / (k * nexamples) ...
std::cout << "R@" << k << ": " << precision / nlabels ...
```
Each parsed input line, together with the label ids the model's top-`k`
prediction would return for it, is one `TestCase`. -/
structure TestCase where
  line : List Nat
  labels : List Nat
  preds : List Nat
deriving DecidableEq

/-- Accumulator `(precision, nexamples, nlabels)` of the `test` loop. -/
def testStep (acc : ℚ × Nat × Nat) (e : TestCase) : ℚ × Nat × Nat :=
  if e.labels.length > 0 ∧ e.line.length > 0 then
    (acc.1 + (e.preds.countP (fun p => p ∈ e.labels) : ℚ),
     acc.2.1 + 1, acc.2.2 + e.labels.length)
  else acc

def testCounts (cases : List TestCase) : ℚ × Nat × Nat :=
  cases.foldl testStep (0, 0, 0)

/-- Reported `P@k`: `precision / (k * nexamples)` (exact rationals stand in
for the C++ `double` arithmetic). -/
def testPrecision (k : Nat) (cases : List TestCase) : ℚ :=
  (testCounts cases).1 / ((k : ℚ) * ((testCounts cases).2.1 : ℚ))

/-- Reported `R@k`: `precision / nlabels` (`k` appears only in the printed
label, not the formula). -/
def testRecall (cases : List TestCase) : ℚ :=
  (testCounts cases).1 / ((testCounts cases).2.2 : ℚ)

/-! ### Streaming prediction (`FastText::predict`, both overloads)

```cpp
void FastText::predict(std::istream &in, int32_t k, std::vector<...> &predictions) const {
    dict_->getLine(in, words, labels, model_->rng);
    dict_->addNgrams(words, args_->wordNgrams);
    if (words.empty()) return;                      // predictions untouched!
    model_->predict(words, k, modelPredictions, hidden, output);
    predictions.clear();
    for (...) predictions.push_back({it->first, dict_->getLabel(it->second)});
}

void FastText::predict(std::istream &in, int32_t k, bool print_prob) {
    std::vector<std::pair<real, std::string>> predictions;   // outside the loop
    while (in.peek() != EOF) {
        predict(in, k, predictions);
        if (predictions.empty()) { std::cout << "n/a" << std::endl; continue; }
        ... print the predictions ...
    }
}
```
One input line is a `PLine`: the token ids `getLine`/`addNgrams` produce for
it, and the `(score, labelId)` pairs `model_->predict` would return for
those tokens.  The buffer `predictions` persists across loop iterations. -/
structure PLine where
  words : List Nat
  modelPreds : List (ℚ × Nat)
deriving DecidableEq

/-- Effect of the single-line `predict` overload on the shared buffer. -/
def predictLineStep (getLabel : Nat → String) (buf : List (ℚ × String))
    (pl : PLine) : List (ℚ × String) :=
  if pl.words.isEmpty then buf
  else pl.modelPreds.map (fun p => (p.1, getLabel p.2))

/-- What the streaming loop prints for one example. -/
inductive OutLine where
  | na : OutLine
  | preds : List (ℚ × String) → OutLine
deriving DecidableEq

def predictStreamAux (getLabel : Nat → String) (buf : List (ℚ × String)) :
    List PLine → List OutLine
  | [] => []
  | pl :: rest =>
      let buf2 := predictLineStep getLabel buf pl
      (if buf2.isEmpty then OutLine.na else OutLine.preds buf2) ::
        predictStreamAux getLabel buf2 rest

/-- The streaming `predict` overload: one `OutLine` per input example. -/
def predictStream (getLabel : Nat → String) (lines : List PLine) :
    List OutLine :=
  predictStreamAux getLabel [] lines

/-- The buffer contents just before example `i` is processed. -/
def bufBefore (getLabel : Nat → String) (lines : List PLine) (i : Nat) :
    List (ℚ × String) :=
  (lines.take i).foldl (predictLineStep getLabel) []

/-! ### The training loop (`FastText::trainThread`, lines 259–282)

```cpp
const int64_t ntokens = dict_->ntokens();
int64_t localTokenCount = 0;
while (tokenCount < args_->epoch * ntokens) {
    real progress = real(tokenCount) / (args_->epoch * ntokens);
    real lr = args_->lr * (1.0 - progress);
    localTokenCount += dict_->getLine(ifs, line, labels, model.rng);
    ... dispatch objective with lr ...
    if (localTokenCount > args_->lrUpdateRate) {
        tokenCount += localTokenCount;
        localTokenCount = 0;
        ...
    }
}
```
We model the loop of a single worker (the shared counter `tokenCount` is
then exactly this worker's flushed total).  `lineTok n` is the token count
`dict_->getLine` returns on the loop's `n`-th iteration; `fuel` bounds the
number of iterations considered (the C++ loop has no structural bound).
Each executed iteration is recorded as `(tokenCount at entry, lr used)`. -/
structure TrainCfg where
  epoch : Nat
  ntokens : Nat
  baseLR : ℚ
  lrUpdateRate : Nat

def trainLoopAux (cfg : TrainCfg) (lineTok : Nat → Nat) :
    Nat → Nat → Nat → Nat → List (Nat × ℚ)
  | 0, _, _, _ => []
  | fuel + 1, n, tokenCount, localTokenCount =>
      if tokenCount < cfg.epoch * cfg.ntokens then
        let progress : ℚ := (tokenCount : ℚ) / ((cfg.epoch * cfg.ntokens : Nat) : ℚ)
        let lr : ℚ := cfg.baseLR * (1 - progress)
        let local2 := localTokenCount + lineTok n
        if local2 > cfg.lrUpdateRate then
          (tokenCount, lr) ::
            trainLoopAux cfg lineTok fuel (n + 1) (tokenCount + local2) 0
        else
          (tokenCount, lr) :: trainLoopAux cfg lineTok fuel (n + 1) tokenCount local2
      else []

/-- The iterations (entry token count, learning rate) a worker executes,
starting from the initial state `tokenCount = 0`, `localTokenCount = 0`. -/
def trainLoop (cfg : TrainCfg) (lineTok : Nat → Nat) (fuel : Nat) :
    List (Nat × ℚ) :=
  trainLoopAux cfg lineTok fuel 0 0 0

/-! ### Persistence (`FastText::saveModel` / `FastText::loadModel`)

```cpp
void FastText::saveModel() {
    args_->save(ofs); dict_->save(ofs); input_->save(ofs); output_->save(ofs);
}
void FastText::loadModel(std::istream &in) {
    args_->load(in); dict_->load(in); input_->load(in); output_->load(in);
    model_ = std::make_shared<Model>(input_, output_, args_, 0);
    if (args_->model == model_name::sup)
        model_->setTargetCounts(dict_->getCounts(entry_type::label));
    else
        model_->setTargetCounts(dict_->getCounts(entry_type::word));
}
```
The collaborator serializers (`Args::save`, `Dictionary::save`,
`Matrix::save` and their loaders) are not part of `src/`.

Modelled from the spec: the spec describes `Args` as holding
dimensionality, window size, epoch count, learning rate, thread count,
n-gram order, bucket count, learning-rate update interval, objective
selector and verbosity; `Dictionary` maps tokens/labels to ids, exposes
per-word subword n-gram ids and token/label counts; matrices are dense 2-D
arrays; each collaborator writes itself to the binary stream with its own
framing.  The binary stream is a token list. -/
inductive Tok where
  | n : Nat → Tok
  | q : ℚ → Tok
  | s : String → Tok
deriving DecidableEq

inductive ModelName where
  | sup : ModelName
  | cbow : ModelName
  | sg : ModelName
deriving DecidableEq

/-- Modelled from the spec: the `Args` configuration record (the fields the
spec lists for the Configuration data model). -/
structure ArgsM where
  dim : Nat
  ws : Nat
  epoch : Nat
  lr : ℚ
  thread : Nat
  wordNgrams : Nat
  bucket : Nat
  lrUpdateRate : Nat
  model : ModelName
  verbose : Nat
deriving DecidableEq

/-- Modelled from the spec: a vocabulary entry — its surface form, corpus
count, and subword n-gram ids. -/
structure DictEntry where
  form : String
  count : Nat
  ngrams : List Nat
deriving DecidableEq

/-- Modelled from the spec: the `Dictionary`, split into word entries and
label entries. -/
structure DictM where
  words : List DictEntry
  labels : List DictEntry
deriving DecidableEq

/-- `dict_->getNgrams(word)`: n-gram ids of a word looked up by surface
form (empty for an absent word, standing for the collaborator's
hashed-bucket fallback which depends only on the query word and the
configuration, not on the matrices). -/
def DictM.getNgrams (d : DictM) (w : String) : List Nat :=
  match d.words.find? (fun e => e.form = w) with
  | some e => e.ngrams
  | none => []

/-- `dict_->getCounts(entry_type::label)` / `(entry_type::word)`. -/
def DictM.labelCounts (d : DictM) : List Nat := d.labels.map (fun e => e.count)

def DictM.wordCounts (d : DictM) : List Nat := d.words.map (fun e => e.count)

/-- The in-memory model the orchestration persists and restores. -/
structure FTModel where
  args : ArgsM
  dict : DictM
  input : Mat
  output : Mat
deriving DecidableEq

def modelNameTag : ModelName → Nat
  | ModelName.sup => 0
  | ModelName.cbow => 1
  | ModelName.sg => 2

def modelNameOfTag : Nat → Option ModelName
  | 0 => some ModelName.sup
  | 1 => some ModelName.cbow
  | 2 => some ModelName.sg
  | _ => none

/-- Modelled from the spec: `Args::save` writes its fields sequentially. -/
def argsSave (a : ArgsM) : List Tok :=
  [Tok.n a.dim, Tok.n a.ws, Tok.n a.epoch, Tok.q a.lr, Tok.n a.thread,
   Tok.n a.wordNgrams, Tok.n a.bucket, Tok.n a.lrUpdateRate,
   Tok.n (modelNameTag a.model), Tok.n a.verbose]

def argsLoad : List Tok → Option (ArgsM × List Tok)
  | Tok.n dim :: Tok.n ws :: Tok.n epoch :: Tok.q lr :: Tok.n thread ::
      Tok.n wordNgrams :: Tok.n bucket :: Tok.n lrUpdateRate ::
      Tok.n mtag :: Tok.n verbose :: rest =>
      match modelNameOfTag mtag with
      | some m =>
          some (⟨dim, ws, epoch, lr, thread, wordNgrams, bucket,
                 lrUpdateRate, m, verbose⟩, rest)
      | none => none
  | _ => none

/-- Length-prefixed list of naturals (a collaborator's own framing). -/
def natListSave (l : List Nat) : List Tok := Tok.n l.length :: l.map Tok.n

def parseNats : Nat → List Tok → Option (List Nat × List Tok)
  | 0, rest => some ([], rest)
  | k + 1, Tok.n x :: rest =>
      match parseNats k rest with
      | some (l, r) => some (x :: l, r)
      | none => none
  | _ + 1, _ => none

def natListLoad : List Tok → Option (List Nat × List Tok)
  | Tok.n len :: rest => parseNats len rest
  | _ => none

/-- Length-prefixed row of rationals. -/
def rowSave (v : Vec) : List Tok := Tok.n v.length :: v.map Tok.q

def parseRats : Nat → List Tok → Option (Vec × List Tok)
  | 0, rest => some ([], rest)
  | k + 1, Tok.q x :: rest =>
      match parseRats k rest with
      | some (l, r) => some (x :: l, r)
      | none => none
  | _ + 1, _ => none

def rowLoad : List Tok → Option (Vec × List Tok)
  | Tok.n len :: rest => parseRats len rest
  | _ => none

/-- Modelled from the spec: `Matrix::save` writes the row count then every
row sequentially. -/
def matSave (m : Mat) : List Tok :=
  Tok.n m.length :: m.flatMap rowSave

def parseRows : Nat → List Tok → Option (Mat × List Tok)
  | 0, rest => some ([], rest)
  | k + 1, rest =>
      match rowLoad rest with
      | some (v, r) =>
          match parseRows k r with
          | some (m, r2) => some (v :: m, r2)
          | none => none
      | none => none

def matLoad : List Tok → Option (Mat × List Tok)
  | Tok.n r :: rest => parseRows r rest
  | _ => none

/-- Modelled from the spec: a vocabulary entry's serialized form — surface
string, count, n-gram ids. -/
def entrySave (e : DictEntry) : List Tok :=
  Tok.s e.form :: Tok.n e.count :: natListSave e.ngrams

def entryLoad : List Tok → Option (DictEntry × List Tok)
  | Tok.s form :: Tok.n count :: rest =>
      match natListLoad rest with
      | some (ng, r) => some (⟨form, count, ng⟩, r)
      | none => none
  | _ => none

def parseEntries : Nat → List Tok → Option (List DictEntry × List Tok)
  | 0, rest => some ([], rest)
  | k + 1, rest =>
      match entryLoad rest with
      | some (e, r) =>
          match parseEntries k r with
          | some (l, r2) => some (e :: l, r2)
          | none => none
      | none => none

/-- Modelled from the spec: `Dictionary::save` writes word entries then
label entries, each group length-prefixed. -/
def dictSave (d : DictM) : List Tok :=
  Tok.n d.words.length :: d.words.flatMap entrySave ++
    (Tok.n d.labels.length :: d.labels.flatMap entrySave)

def dictLoad (toks : List Tok) : Option (DictM × List Tok) :=
  match toks with
  | Tok.n nw :: rest =>
      match parseEntries nw rest with
      | some (ws, r1) =>
          match r1 with
          | Tok.n nl :: r2 =>
              match parseEntries nl r2 with
              | some (ls, r3) => some (⟨ws, ls⟩, r3)
              | none => none
          | _ => none
      | none => none
  | _ => none

/-- `FastText::saveModel`: Configuration, Vocabulary, input matrix, output
matrix written sequentially, in that order, to one stream. -/
def saveModel (m : FTModel) : List Tok :=
  argsSave m.args ++ dictSave m.dict ++ matSave m.input ++ matSave m.output

/-- The state `FastText::loadModel` leaves behind: the four components plus
the optimizer's recomputed target-sampling distribution. -/
structure Loaded where
  model : FTModel
  targetCounts : List Nat
deriving DecidableEq

/-- `FastText::loadModel`: read the four components back in save order,
then recompute the target distribution from label counts (supervised) or
word counts (otherwise). -/
def loadModel (toks : List Tok) : Option Loaded :=
  match argsLoad toks with
  | some (a, r1) =>
      match dictLoad r1 with
      | some (d, r2) =>
          match matLoad r2 with
          | some (inp, r3) =>
              match matLoad r3 with
              | some (out, _) =>
                  some ⟨⟨a, d, inp, out⟩,
                        if a.model = ModelName.sup then d.labelCounts
                        else d.wordCounts⟩
              | none => none
          | none => none
      | none => none
  | none => none

/-- `getVector` as invoked on a full model: look the word's n-grams up in
the dictionary, then average the input-matrix rows. -/
def modelGetVector (m : FTModel) (w : String) : Vec :=
  getVector m.input m.args.dim (m.dict.getNgrams w)

/-! ## Helper lemmas -/

theorem vecAdd_length {n : Nat} {a b : Vec} (ha : a.length = n)
    (hb : b.length = n) : (vecAdd a b).length = n := by
  simp [vecAdd, ha, hb]

theorem vecAdd_getD {n : Nat} {a b : Vec} (ha : a.length = n)
    (hb : b.length = n) {j : Nat} (hj : j < n) :
    (vecAdd a b).getD j 0 = a.getD j 0 + b.getD j 0 := by
  have hl : j < (vecAdd a b).length := by
    rw [vecAdd_length ha hb]; exact hj
  rw [List.getD_eq_getElem _ _ hl,
      List.getD_eq_getElem _ _ (by rw [ha]; exact hj),
      List.getD_eq_getElem _ _ (by rw [hb]; exact hj)]
  simp [vecAdd]

theorem matRow_length {input : Mat} {dim : Nat}
    (hrows : ∀ r ∈ input, r.length = dim) {i : Nat} (hi : i < input.length) :
    (matRow input i).length = dim := by
  have : matRow input i = input[i] := List.getD_eq_getElem _ _ hi
  rw [this]
  exact hrows _ (List.getElem_mem hi)

theorem vecZero_length (dim : Nat) : (vecZero dim).length = dim := by
  simp [vecZero]

theorem vecZero_getD (dim j : Nat) : (vecZero dim).getD j 0 = 0 := by
  by_cases h : j < dim
  · rw [List.getD_eq_getElem _ _ (by simpa [vecZero] using h)]
    simp [vecZero]
  · rw [List.getD_eq_default]
    simp [vecZero]
    omega

/-- The accumulating sum loop of `getVector`, characterized per
component. -/
theorem foldl_addRow_spec (input : Mat) (dim : Nat)
    (hrows : ∀ r ∈ input, r.length = dim) :
    ∀ (ngrams : List Nat), (∀ i ∈ ngrams, i < input.length) →
      ∀ (v : Vec), v.length = dim →
        (ngrams.foldl (fun v i => vecAdd v (matRow input i)) v).length = dim ∧
        ∀ j, j < dim →
          (ngrams.foldl (fun v i => vecAdd v (matRow input i)) v).getD j 0 =
            v.getD j 0 + (ngrams.map (fun i => (matRow input i).getD j 0)).sum := by
  intro ngrams
  induction ngrams with
  | nil => intro _ v hv; exact ⟨hv, fun j _ => by simp⟩
  | cons i is ih =>
      intro hids v hv
      have hi : i < input.length := hids i (List.mem_cons_self i is)
      have hrow : (matRow input i).length = dim := matRow_length hrows hi
      have hv2 : (vecAdd v (matRow input i)).length = dim := vecAdd_length hv hrow
      have hids2 : ∀ x ∈ is, x < input.length :=
        fun x hx => hids x (List.mem_cons_of_mem _ hx)
      obtain ⟨hlen, hcomp⟩ := ih hids2 (vecAdd v (matRow input i)) hv2
      refine ⟨hlen, fun j hj => ?_⟩
      have := hcomp j hj
      simp only [List.foldl_cons] at *
      rw [this, vecAdd_getD hv hrow hj]
      simp [add_assoc]

/-! ## C1: `getVector` is the elementwise mean of the n-gram rows -/

/-- C1: For every word, `getVector` returns the elementwise mean of the
embedding rows of the word's subword n-gram ids — it has dimension `dim`,
each component is the sum of the corresponding row components divided by
the number of n-grams — and it is exactly the zero vector when the n-gram
set is empty. -/
theorem getVector_is_mean (input : Mat) (dim : Nat) (ngrams : List Nat)
    (hrows : ∀ r ∈ input, r.length = dim)
    (hids : ∀ i ∈ ngrams, i < input.length) :
    (getVector input dim ngrams).length = dim ∧
    (ngrams = [] → getVector input dim ngrams = vecZero dim) ∧
    (∀ j, j < dim → ngrams ≠ [] →
      (getVector input dim ngrams).getD j 0 =
        (ngrams.map (fun i => (matRow input i).getD j 0)).sum /
          (ngrams.length : ℚ)) := by
  obtain ⟨hlen, hcomp⟩ :=
    foldl_addRow_spec input dim hrows ngrams hids (vecZero dim)
      (vecZero_length dim)
  set s := ngrams.foldl (fun v i => vecAdd v (matRow input i)) (vecZero dim)
    with hs
  refine ⟨?_, ?_, ?_⟩
  · by_cases h : ngrams.length > 0
    · simp only [getVector, if_pos h, ← hs, vecScale, List.length_map]
      exact hlen
    · simp only [getVector, if_neg h, ← hs]
      exact hlen
  · intro h
    simp [getVector, h]
  · intro j hj hne
    have hpos : ngrams.length > 0 := List.length_pos.mpr hne
    have hcj := hcomp j hj
    rw [vecZero_getD, zero_add] at hcj
    simp only [getVector, if_pos hpos, ← hs]
    have hjs : j < s.length := by rw [hlen]; exact hj
    have hscale : (vecScale (1 / (ngrams.length : ℚ)) s).getD j 0 =
        (1 / (ngrams.length : ℚ)) * s.getD j 0 := by
      rw [List.getD_eq_getElem _ _ (by simpa [vecScale] using hjs),
          List.getD_eq_getElem _ _ hjs]
      simp [vecScale]
    rw [hscale, hcj]
    field_simp

/-- Witness for C1 at a concrete input: a 2-row matrix of dimension 2,
n-grams `[0, 1]`. -/
theorem getVector_is_mean_witness :
    (getVector [[1, 2], [3, 6]] 2 [0, 1]).length = 2 ∧
    (getVector [[1, 2], [3, 6]] 2 [0, 1]).getD 0 0 =
      (([0, 1] : List Nat).map
        (fun i => (matRow [[1, 2], [3, 6]] i).getD 0 0)).sum / 2 := by
  obtain ⟨h1, _, h3⟩ :=
    getVector_is_mean [[1, 2], [3, 6]] 2 [0, 1] (by decide) (by decide)
  exact ⟨h1, by simpa using h3 0 (by decide) (by decide)⟩

/-! ## C3: the supervised objective -/

/-- C3: `supervised` performs zero optimizer updates when the line or the
label set is empty; otherwise, for any index the uniform draw over
`0 .. labels.size - 1` can produce, it performs exactly one update whose
input is the full line and whose target is the drawn label. -/
theorem supervised_updates (line labels : List Nat) (draw : Nat) :
    (labels = [] ∨ line = [] → supervised line labels draw = []) ∧
    (∀ h : draw < labels.length, labels ≠ [] → line ≠ [] →
      supervised line labels draw = [(line, labels.get ⟨draw, h⟩)]) := by
  constructor
  · intro h
    rcases h with h | h <;> simp [supervised, h]
  · intro h hlab hline
    have h1 : ¬ (labels.length = 0 ∨ line.length = 0) := by
      simp [List.length_eq_zero]
      exact ⟨hlab, hline⟩
    simp only [supervised, if_neg h1]
    rw [List.getD_eq_getElem _ _ h]
    rfl

/-- Witness for C3: line `[4, 5]`, labels `[7, 9]`, draw `1`. -/
theorem supervised_updates_witness :
    supervised [4, 5] [7, 9] 1 = [([4, 5], 9)] :=
  (supervised_updates [4, 5] [7, 9] 1).2 (by decide) (by decide) (by decide)

/-! ## C6: corpus partition offsets -/

/-- C6: for every worker count `T > 0` and file size `totalSize > 0`, the
partition offsets `i * totalSize / T` start at 0, are non-decreasing in the
worker index, and the last worker's offset stays strictly below the file
size. -/
theorem partitionOffset_valid (totalSize T : Nat) (hT : 0 < T)
    (hS : 0 < totalSize) :
    partitionOffset totalSize T 0 = 0 ∧
    (∀ i j, i ≤ j →
      partitionOffset totalSize T i ≤ partitionOffset totalSize T j) ∧
    partitionOffset totalSize T (T - 1) < totalSize := by
  refine ⟨by simp [partitionOffset], ?_, ?_⟩
  · intro i j hij
    exact Nat.div_le_div_right (Nat.mul_le_mul_right _ hij)
  · rw [partitionOffset, Nat.div_lt_iff_lt_mul hT]
    calc (T - 1) * totalSize < T * totalSize :=
          (Nat.mul_lt_mul_right hS).mpr (Nat.sub_lt hT Nat.one_pos)
      _ = totalSize * T := Nat.mul_comm T totalSize

/-- Witness for C6: 4 workers over a 10-byte file. -/
theorem partitionOffset_valid_witness :
    partitionOffset 10 4 0 = 0 ∧
    partitionOffset 10 4 1 ≤ partitionOffset 10 4 2 ∧
    partitionOffset 10 4 3 < 10 :=
  ⟨(partitionOffset_valid 10 4 (by decide) (by decide)).1,
   (partitionOffset_valid 10 4 (by decide) (by decide)).2.1 1 2 (by decide),
   (partitionOffset_valid 10 4 (by decide) (by decide)).2.2⟩

/-! ## C2: streaming prediction and `n/a`

The buffer `predictions` lives outside the streaming loop and the
single-line overload returns *before* clearing it when the line has no
words, so a no-token line "reprints" the previous successful line's
predictions instead of `n/a`. -/

/-- C2 counterexample: in a two-line stream whose first line predicts
`(0, "A")` and whose second line tokenizes to no words, the second printed
line is the stale predictions of the first line, not `n/a`. -/
theorem predict_na_counterexample :
    (⟨[], []⟩ : PLine).words = [] ∧
    predictStream (fun _ => "A") [⟨[1], [(0, 7)]⟩, ⟨[], []⟩] =
      [OutLine.preds [(0, "A")], OutLine.preds [(0, "A")]] ∧
    (predictStream (fun _ => "A") [⟨[1], [(0, 7)]⟩, ⟨[], []⟩]).get? 1 ≠
      some OutLine.na := by
  refine ⟨rfl, rfl, ?_⟩
  intro h
  simp [predictStream, predictStreamAux, predictLineStep] at h

/-- The output the streaming loop produces at position `i`, for any
starting buffer. -/
theorem predictStreamAux_get? (gl : Nat → String) :
    ∀ (lines : List PLine) (buf : List (ℚ × String)) (i : Nat),
      i < lines.length →
      (predictStreamAux gl buf lines).get? i =
        some ((fun b2 => if b2.isEmpty then OutLine.na else OutLine.preds b2)
          (predictLineStep gl ((lines.take i).foldl (predictLineStep gl) buf)
            (lines.getD i ⟨[], []⟩))) := by
  intro lines
  induction lines with
  | nil => intro _ i hi; simp at hi
  | cons pl rest ih =>
      intro buf i hi
      cases i with
      | zero => simp [predictStreamAux]
      | succ j =>
          have hj : j < rest.length := by
            simpa [Nat.succ_lt_succ_iff] using hi
          simp only [predictStreamAux, List.get?_cons_succ, List.take_succ_cons,
            List.foldl_cons, List.getD_cons_succ]
          exact ih (predictLineStep gl buf pl) j hj

/-- C2 amended: for every input line whose tokenization yields no words,
the streaming loop prints `n/a` exactly when the persistent prediction
buffer is empty at that point; otherwise it reprints the buffer — the most
recently produced predictions of an earlier line. -/
theorem predict_na_amended (gl : Nat → String) (lines : List PLine)
    (i : Nat) (hi : i < lines.length)
    (hw : (lines.getD i ⟨[], []⟩).words = []) :
    (predictStream gl lines).get? i =
      some (if (bufBefore gl lines i).isEmpty then OutLine.na
            else OutLine.preds (bufBefore gl lines i)) := by
  have h := predictStreamAux_get? gl lines [] i hi
  rw [predictStream, h]
  simp only [predictLineStep, hw, List.isEmpty_nil, if_pos, bufBefore]

/-- Witness for C2's amended theorem: a single no-word line prints
`n/a`. -/
theorem predict_na_amended_witness :
    (predictStream (fun _ => "B") [⟨[], []⟩]).get? 0 = some OutLine.na := by
  have h := predict_na_amended (fun _ => "B") [⟨[], []⟩] 0 (by decide) rfl
  simpa [bufBefore] using h

/-! ## C4: the CBOW objective -/

/-- Membership in the collected bag-of-ngrams of a CBOW center position:
exactly the n-grams of the in-bounds positions other than `w` within the
radius `b`. -/
theorem bowList_mem (ngr : Nat → List Nat) (line : List Nat) (w b x : Nat) :
    x ∈ bowList ngr line w b ↔
      ∃ j : Nat, j < line.length ∧ j ≠ w ∧
        (j : Int) ≤ (w : Int) + (b : Int) ∧
        (w : Int) ≤ (j : Int) + (b : Int) ∧
        x ∈ ngr (line.getD j 0) := by
  simp only [bowList, List.mem_flatMap, List.mem_range]
  constructor
  · rintro ⟨k, hk, hx⟩
    by_cases hc : (k : Int) - (b : Int) ≠ 0 ∧
        0 ≤ (w : Int) + ((k : Int) - (b : Int)) ∧
        (w : Int) + ((k : Int) - (b : Int)) < (line.length : Int)
    · rw [if_pos hc] at hx
      refine ⟨((w : Int) + ((k : Int) - (b : Int))).toNat, ?_, ?_, ?_, ?_, hx⟩
      · omega
      · omega
      · omega
      · omega
    · rw [if_neg hc] at hx
      cases hx
  · rintro ⟨j, hj, hjw, h1, h2, hx⟩
    refine ⟨j + b - w, by omega, ?_⟩
    have hcond : ((j + b - w : Nat) : Int) - (b : Int) ≠ 0 ∧
        0 ≤ (w : Int) + (((j + b - w : Nat) : Int) - (b : Int)) ∧
        (w : Int) + (((j + b - w : Nat) : Int) - (b : Int)) <
          (line.length : Int) := by
      refine ⟨by omega, by omega, by omega⟩
    rw [if_pos hcond]
    have hidx : ((w : Int) + (((j + b - w : Nat) : Int) - (b : Int))).toNat = j := by
      omega
    rw [hidx]
    exact hx

/-- C4: CBOW performs exactly one optimizer update per line position; the
update at position `w` targets the token at `w`, and its input contains an
n-gram id exactly when some other in-bounds position within the drawn
radius contributes it (the union of the context positions' n-gram sets). -/
theorem cbow_one_update_per_position (ngr : Nat → List Nat)
    (line radii : List Nat) :
    (cbow ngr line radii).length = line.length ∧
    ∀ w, w < line.length →
      ((cbow ngr line radii).getD w ([], 0)).2 = line.getD w 0 ∧
      ∀ x, x ∈ ((cbow ngr line radii).getD w ([], 0)).1 ↔
        ∃ j : Nat, j < line.length ∧ j ≠ w ∧
          (j : Int) ≤ (w : Int) + (radii.getD w 1 : Int) ∧
          (w : Int) ≤ (j : Int) + (radii.getD w 1 : Int) ∧
          x ∈ ngr (line.getD j 0) := by
  have hlen : (cbow ngr line radii).length = line.length := by
    simp [cbow]
  refine ⟨hlen, fun w hw => ?_⟩
  have hwc : w < (cbow ngr line radii).length := by rw [hlen]; exact hw
  have hval : (cbow ngr line radii).getD w ([], 0) =
      (bowList ngr line w (radii.getD w 1), line.getD w 0) := by
    rw [List.getD_eq_getElem _ _ hwc]
    simp [cbow]
  rw [hval]
  exact ⟨rfl, fun x => bowList_mem ngr line w (radii.getD w 1) x⟩

/-- Witness for C4 at the line `[10, 20]` with radii `[1, 1]` and the
identity-singleton n-gram map: one update per position, position 0 targets
token 10 with token 20's n-gram in its input. -/
theorem cbow_one_update_per_position_witness :
    (cbow (fun t => [t]) [10, 20] [1, 1]).length = 2 ∧
    ((cbow (fun t => [t]) [10, 20] [1, 1]).getD 0 ([], 0)).2 = 10 ∧
    20 ∈ ((cbow (fun t => [t]) [10, 20] [1, 1]).getD 0 ([], 0)).1 := by
  obtain ⟨h1, h2⟩ := cbow_one_update_per_position (fun t => [t]) [10, 20] [1, 1]
  obtain ⟨ht, hmem⟩ := h2 0 (by decide)
  refine ⟨h1, ht, ?_⟩
  exact (hmem 20).mpr ⟨1, by decide, by decide, by decide, by decide, by decide⟩

/-! ## C9: skip-gram issues at least as many updates as CBOW -/

theorem flatMap_length_eq {α β : Type} (l : List α) (f : α → List β) :
    (l.flatMap f).length = (l.map (fun a => (f a).length)).sum := by
  induction l with
  | nil => rfl
  | cons a as ih => simp [ih]

/-- With radius at least 1 and at least two line positions, every center
position has at least one admissible context position, so `skipgramAt`
emits at least one update. -/
theorem skipgramAt_length_pos (ngr : Nat → List Nat) (line : List Nat)
    (w b : Nat) (hb : 1 ≤ b) (hw : w < line.length) (h2 : 2 ≤ line.length) :
    0 < (skipgramAt ngr line w b).length := by
  by_cases hw0 : w = 0
  · subst hw0
    apply List.length_pos_of_mem
      (a := (ngr (line.getD 0 0), line.getD 1 0))
    simp only [skipgramAt, List.mem_flatMap, List.mem_range]
    refine ⟨b + 1, by omega, ?_⟩
    have hcond : ((b + 1 : Nat) : Int) - (b : Int) ≠ 0 ∧
        0 ≤ ((0 : Nat) : Int) + (((b + 1 : Nat) : Int) - (b : Int)) ∧
        ((0 : Nat) : Int) + (((b + 1 : Nat) : Int) - (b : Int)) <
          (line.length : Int) := ⟨by omega, by omega, by omega⟩
    rw [if_pos hcond]
    have hidx : (((0 : Nat) : Int) + (((b + 1 : Nat) : Int) - (b : Int))).toNat
        = 1 := by omega
    rw [hidx]
    exact List.mem_singleton.mpr rfl
  · apply List.length_pos_of_mem
      (a := (ngr (line.getD w 0), line.getD (w - 1) 0))
    simp only [skipgramAt, List.mem_flatMap, List.mem_range]
    refine ⟨b - 1, by omega, ?_⟩
    have hcond : ((b - 1 : Nat) : Int) - (b : Int) ≠ 0 ∧
        0 ≤ (w : Int) + (((b - 1 : Nat) : Int) - (b : Int)) ∧
        (w : Int) + (((b - 1 : Nat) : Int) - (b : Int)) <
          (line.length : Int) := ⟨by omega, by omega, by omega⟩
    rw [if_pos hcond]
    have hidx : ((w : Int) + (((b - 1 : Nat) : Int) - (b : Int))).toNat
        = w - 1 := by omega
    rw [hidx]
    exact List.mem_singleton.mpr rfl

/-- C9: for every line with at least two positions and every fixed
sequence of per-position radius draws (each at least 1, as `uniform(1, ws)`
guarantees), skip-gram issues at least as many optimizer updates as CBOW
issues on the same line. -/
theorem skipgram_ge_cbow (ngr : Nat → List Nat) (line radii : List Nat)
    (h2 : 2 ≤ line.length) (hr : ∀ b ∈ radii, 1 ≤ b) :
    (cbow ngr line radii).length ≤ (skipgram ngr line radii).length := by
  have hc : (cbow ngr line radii).length = line.length := by simp [cbow]
  have hs : (skipgram ngr line radii).length =
      ((List.range line.length).map
        (fun w => (skipgramAt ngr line w (radii.getD w 1)).length)).sum := by
    rw [skipgram, flatMap_length_eq]
  rw [hc, hs]
  have hone : ∀ x ∈ (List.range line.length).map
      (fun w => (skipgramAt ngr line w (radii.getD w 1)).length), 1 ≤ x := by
    intro x hx
    simp only [List.mem_map, List.mem_range] at hx
    obtain ⟨w, hw, rfl⟩ := hx
    have hb : 1 ≤ radii.getD w 1 := by
      by_cases h : w < radii.length
      · rw [List.getD_eq_getElem _ _ h]
        exact hr _ (List.getElem_mem h)
      · rw [List.getD_eq_default _ _ (by omega)]
    exact skipgramAt_length_pos ngr line w (radii.getD w 1) hb hw h2
  have hsum := List.length_le_sum_of_one_le _ hone
  simpa using hsum

/-- Witness for C9: the two-token line `[1, 2]` with radii `[1, 1]`. -/
theorem skipgram_ge_cbow_witness :
    (cbow (fun t => [t]) [1, 2] [1, 1]).length ≤
      (skipgram (fun t => [t]) [1, 2] [1, 1]).length :=
  skipgram_ge_cbow (fun t => [t]) [1, 2] [1, 1] (by decide)
    (by intro b hb; simp at hb; omega)

/-! ## C5: the learning-rate schedule of the training loop -/

/-- Every iteration the worker loop executes (from any intermediate state)
starts with the token counter below the budget and uses the learning rate
`baseLR * (1 - tokenCount / (epoch * ntokens))`. -/
theorem trainLoopAux_spec (cfg : TrainCfg) (lineTok : Nat → Nat) :
    ∀ (fuel n tc lc : Nat), ∀ p ∈ trainLoopAux cfg lineTok fuel n tc lc,
      p.1 < cfg.epoch * cfg.ntokens ∧
      p.2 = cfg.baseLR *
        (1 - (p.1 : ℚ) / ((cfg.epoch * cfg.ntokens : Nat) : ℚ)) := by
  intro fuel
  induction fuel with
  | zero => intro n tc lc p hp; cases hp
  | succ f ih =>
      intro n tc lc p hp
      by_cases hguard : tc < cfg.epoch * cfg.ntokens
      · rw [trainLoopAux, if_pos hguard] at hp
        by_cases hflush : lc + lineTok n > cfg.lrUpdateRate
        · rw [if_pos hflush] at hp
          rcases List.mem_cons.mp hp with h | h
          · subst h; exact ⟨hguard, rfl⟩
          · exact ih n.succ (tc + (lc + lineTok n)) 0 p h
        · rw [if_neg hflush] at hp
          rcases List.mem_cons.mp hp with h | h
          · subst h; exact ⟨hguard, rfl⟩
          · exact ih n.succ tc (lc + lineTok n) p h
      · rw [trainLoopAux, if_neg hguard] at hp
        cases hp

/-- C5: in the training loop, every executed iteration reads the global
token count at its start, continues only while that count is below
`epochs * totalTokens`, and uses learning rate `baseLR * (1 - progress)`
with `progress = tokenCount / (epochs * totalTokens)` staying in
`[0, 1]`; moreover the loop body never runs once the budget is reached. -/
theorem trainLoop_lr_schedule (cfg : TrainCfg) (lineTok : Nat → Nat)
    (fuel : Nat) (hE : 0 < cfg.epoch) (hN : 0 < cfg.ntokens) :
    (∀ p ∈ trainLoop cfg lineTok fuel,
      p.1 < cfg.epoch * cfg.ntokens ∧
      p.2 = cfg.baseLR *
        (1 - (p.1 : ℚ) / ((cfg.epoch * cfg.ntokens : Nat) : ℚ)) ∧
      0 ≤ (p.1 : ℚ) / ((cfg.epoch * cfg.ntokens : Nat) : ℚ) ∧
      (p.1 : ℚ) / ((cfg.epoch * cfg.ntokens : Nat) : ℚ) ≤ 1) ∧
    (∀ n tc lc, cfg.epoch * cfg.ntokens ≤ tc →
      trainLoopAux cfg lineTok fuel n tc lc = []) := by
  have hpos : 0 < cfg.epoch * cfg.ntokens := Nat.mul_pos hE hN
  have hposq : (0 : ℚ) < ((cfg.epoch * cfg.ntokens : Nat) : ℚ) := by
    exact_mod_cast hpos
  constructor
  · intro p hp
    obtain ⟨h1, h2⟩ := trainLoopAux_spec cfg lineTok fuel 0 0 0 p hp
    refine ⟨h1, h2, ?_, ?_⟩
    · positivity
    · rw [div_le_one hposq]
      exact_mod_cast Nat.le_of_lt h1
  · intro n tc lc hle
    cases fuel with
    | zero => rfl
    | succ f => rw [trainLoopAux, if_neg (by omega)]

/-- Witness for C5: one epoch over a 2-token corpus, base learning rate 1,
flush threshold 0; the single executed iteration runs at token count 0
with learning rate 1, and the loop from an exhausted counter is empty. -/
theorem trainLoop_lr_schedule_witness :
    ((0, (1 : ℚ)) ∈ trainLoop ⟨1, 2, 1, 0⟩ (fun _ => 3) 1 →
      (0 < 1 * 2 ∧ (1 : ℚ) = 1 * (1 - ((0 : Nat) : ℚ) / (((1 * 2 : Nat)) : ℚ)) ∧
        0 ≤ ((0 : Nat) : ℚ) / (((1 * 2 : Nat)) : ℚ) ∧
        ((0 : Nat) : ℚ) / (((1 * 2 : Nat)) : ℚ) ≤ 1)) ∧
    trainLoopAux ⟨1, 2, 1, 0⟩ (fun _ => 3) 1 0 2 0 = [] := by
  obtain ⟨h1, h2⟩ :=
    trainLoop_lr_schedule ⟨1, 2, 1, 0⟩ (fun _ => 3) 1 (by decide) (by decide)
  exact ⟨fun hm => h1 (0, 1) hm, h2 0 2 0 (by decide)⟩

/-! ## C7 and C10: evaluation counters -/

/-- Folding the `test` loop over a perfect stream — every example has
tokens, exactly one true label, and a matching top-1 prediction — adds the
example count to each accumulator component. -/
theorem testCounts_perfect_aux :
    ∀ (cases : List TestCase) (p : ℚ) (a b : Nat),
      (∀ e ∈ cases, e.line ≠ [] ∧ ∃ l, e.labels = [l] ∧ e.preds = [l]) →
      cases.foldl testStep (p, a, b) =
        (p + cases.length, a + cases.length, b + cases.length) := by
  intro cases
  induction cases with
  | nil => intro p a b _; simp
  | cons e es ih =>
      intro p a b hall
      obtain ⟨hline, l, hlab, hpred⟩ := hall e (List.mem_cons_self e es)
      have hall2 : ∀ x ∈ es, x.line ≠ [] ∧ ∃ l, x.labels = [l] ∧ x.preds = [l] :=
        fun x hx => hall x (List.mem_cons_of_mem _ hx)
      have hguard : e.labels.length > 0 ∧ e.line.length > 0 := by
        constructor
        · rw [hlab]; simp
        · exact List.length_pos.mpr hline
      have hstep : testStep (p, a, b) e = (p + 1, a + 1, b + 1) := by
        rw [testStep, if_pos hguard, hlab, hpred]
        simp
      rw [List.foldl_cons, hstep, ih (p + 1) (a + 1) (b + 1) hall2]
      simp only [List.length_cons, Prod.mk.injEq]
      refine ⟨by push_cast; ring, by omega, by omega⟩

/-- C7: `test` counts an example only when both tokens and labels are
present (such lines leave the accumulator untouched), and on a stream of
`N > 0` examples each having exactly one true label and a matching top-1
prediction, `precision@1 = 1` and `recall@1 = 1`. -/
theorem test_precision_recall_perfect (cases : List TestCase)
    (hall : ∀ e ∈ cases, e.line ≠ [] ∧ ∃ l, e.labels = [l] ∧ e.preds = [l])
    (hne : cases ≠ []) :
    (∀ acc e, e.labels = [] ∨ e.line = [] → testStep acc e = acc) ∧
    (testCounts cases).2.1 = cases.length ∧
    (testCounts cases).2.2 = cases.length ∧
    testPrecision 1 cases = 1 ∧
    testRecall cases = 1 := by
  have hskip : ∀ (acc : ℚ × Nat × Nat) (e : TestCase),
      e.labels = [] ∨ e.line = [] → testStep acc e = acc := by
    intro acc e h
    have : ¬ (e.labels.length > 0 ∧ e.line.length > 0) := by
      rcases h with h | h <;> rw [h] <;> simp
    simp [testStep, this]
  have hcounts : testCounts cases =
      ((cases.length : ℚ), cases.length, cases.length) := by
    have := testCounts_perfect_aux cases 0 0 0 hall
    simpa [testCounts] using this
  have hN : (0 : ℚ) < (cases.length : ℚ) := by
    have := List.length_pos.mpr hne
    exact_mod_cast this
  refine ⟨hskip, by rw [hcounts], by rw [hcounts], ?_, ?_⟩
  · rw [testPrecision, hcounts]
    field_simp
  · rw [testRecall, hcounts]
    field_simp

/-- Witness for C7: one example with token `1`, true label `2`, predicted
label `2`. -/
theorem test_precision_recall_perfect_witness :
    testPrecision 1 [⟨[1], [2], [2]⟩] = 1 ∧
    testRecall [⟨[1], [2], [2]⟩] = 1 := by
  obtain ⟨_, _, _, h4, h5⟩ :=
    test_precision_recall_perfect [⟨[1], [2], [2]⟩]
      (by
        intro e he
        rcases List.mem_singleton.mp he with rfl
        exact ⟨by decide, 2, rfl, rfl⟩)
      (by decide)
  exact ⟨h4, h5⟩

/-- Lines without both tokens and labels leave the `test` accumulator
unchanged, whatever its value. -/
theorem testCounts_skipped_aux :
    ∀ (cases : List TestCase) (acc : ℚ × Nat × Nat),
      (∀ e ∈ cases, e.labels = [] ∨ e.line = []) →
      cases.foldl testStep acc = acc := by
  intro cases
  induction cases with
  | nil => intro acc _; rfl
  | cons e es ih =>
      intro acc hall
      have h := hall e (List.mem_cons_self e es)
      have hng : ¬ (e.labels.length > 0 ∧ e.line.length > 0) := by
        rcases h with h | h <;> rw [h] <;> simp
      rw [List.foldl_cons]
      rw [show testStep acc e = acc from by simp [testStep, hng]]
      exact ih acc (fun x hx => hall x (List.mem_cons_of_mem _ hx))

/-- C10: when no line of the evaluation stream has both tokens and labels,
`test` reaches its final division with `nexamples = 0` and `nlabels = 0`:
both reported ratios are divisions by zero (`0 / 0` — in the C++ `double`
arithmetic this is NaN). -/
theorem test_divides_by_zero (cases : List TestCase) (k : Nat)
    (hall : ∀ e ∈ cases, e.labels = [] ∨ e.line = []) :
    testCounts cases = (0, 0, 0) ∧
    (k : ℚ) * (((testCounts cases).2.1 : Nat) : ℚ) = 0 ∧
    (((testCounts cases).2.2 : Nat) : ℚ) = 0 := by
  have h := testCounts_skipped_aux cases (0, 0, 0) hall
  have hc : testCounts cases = (0, 0, 0) := by
    simpa [testCounts] using h
  refine ⟨hc, ?_, ?_⟩
  · rw [hc]; simp
  · rw [hc]; simp

/-- Witness for C10: a single line with a label but no tokens, `k = 1`. -/
theorem test_divides_by_zero_witness :
    testCounts [⟨[], [5], []⟩] = (0, 0, 0) ∧
    (1 : ℚ) * (((testCounts [⟨[], [5], []⟩]).2.1 : Nat) : ℚ) = 0 := by
  obtain ⟨h1, h2, _⟩ :=
    test_divides_by_zero [⟨[], [5], []⟩] 1
      (by
        intro e he
        rcases List.mem_singleton.mp he with rfl
        exact Or.inr rfl)
  exact ⟨h1, h2⟩

/-! ## C8: model persistence round-trip -/

theorem parseNats_roundtrip : ∀ (l : List Nat) (rest : List Tok),
    parseNats l.length (l.map Tok.n ++ rest) = some (l, rest) := by
  intro l
  induction l with
  | nil => intro rest; rfl
  | cons x xs ih =>
      intro rest
      simp [parseNats, ih rest]

theorem natListLoad_roundtrip (l : List Nat) (rest : List Tok) :
    natListLoad (natListSave l ++ rest) = some (l, rest) := by
  simp only [natListSave, List.cons_append, natListLoad]
  exact parseNats_roundtrip l rest

theorem parseRats_roundtrip : ∀ (v : Vec) (rest : List Tok),
    parseRats v.length (v.map Tok.q ++ rest) = some (v, rest) := by
  intro v
  induction v with
  | nil => intro rest; rfl
  | cons x xs ih =>
      intro rest
      simp [parseRats, ih rest]

theorem rowLoad_roundtrip (v : Vec) (rest : List Tok) :
    rowLoad (rowSave v ++ rest) = some (v, rest) := by
  simp only [rowSave, List.cons_append, rowLoad]
  exact parseRats_roundtrip v rest

theorem parseRows_roundtrip : ∀ (m : Mat) (rest : List Tok),
    parseRows m.length (m.flatMap rowSave ++ rest) = some (m, rest) := by
  intro m
  induction m with
  | nil => intro rest; rfl
  | cons v vs ih =>
      intro rest
      simp [parseRows, List.append_assoc,
        rowLoad_roundtrip v (vs.flatMap rowSave ++ rest), ih rest]

theorem matLoad_roundtrip (m : Mat) (rest : List Tok) :
    matLoad (matSave m ++ rest) = some (m, rest) := by
  simp only [matSave, List.cons_append, matLoad]
  exact parseRows_roundtrip m rest

theorem entryLoad_roundtrip (e : DictEntry) (rest : List Tok) :
    entryLoad (entrySave e ++ rest) = some (e, rest) := by
  rcases e with ⟨form, count, ngrams⟩
  simp only [entrySave, List.cons_append, entryLoad, List.append_assoc]
  rw [natListLoad_roundtrip ngrams rest]

theorem parseEntries_roundtrip : ∀ (l : List DictEntry) (rest : List Tok),
    parseEntries l.length (l.flatMap entrySave ++ rest) = some (l, rest) := by
  intro l
  induction l with
  | nil => intro rest; rfl
  | cons e es ih =>
      intro rest
      simp [parseEntries, List.append_assoc,
        entryLoad_roundtrip e (es.flatMap entrySave ++ rest), ih rest]

theorem dictLoad_roundtrip (d : DictM) (rest : List Tok) :
    dictLoad (dictSave d ++ rest) = some (d, rest) := by
  rcases d with ⟨ws, ls⟩
  simp [dictSave, dictLoad, List.append_assoc,
    parseEntries_roundtrip ws (Tok.n ls.length :: (ls.flatMap entrySave ++ rest)),
    parseEntries_roundtrip ls rest]

theorem argsLoad_roundtrip (a : ArgsM) (rest : List Tok) :
    argsLoad (argsSave a ++ rest) = some (a, rest) := by
  rcases a with ⟨dim, ws, epoch, lr, thread, wng, bucket, lur, m, verb⟩
  cases m <;> rfl

/-- C8: saving writes Configuration, Vocabulary, input matrix, output
matrix sequentially; loading the saved stream reads them back in the same
order, reconstructs the identical model, recomputes the target-sampling
distribution from label counts (supervised) or word counts (otherwise),
and `getVector` on the loaded model returns exactly the saved model's
vector for every word. -/
theorem saveModel_loadModel_roundtrip (m : FTModel) :
    saveModel m =
      argsSave m.args ++ dictSave m.dict ++ matSave m.input ++
        matSave m.output ∧
    loadModel (saveModel m) =
      some ⟨m, if m.args.model = ModelName.sup then m.dict.labelCounts
               else m.dict.wordCounts⟩ ∧
    ∀ ld : Loaded, loadModel (saveModel m) = some ld →
      ∀ w : String, modelGetVector ld.model w = modelGetVector m w := by
  have hload : loadModel (saveModel m) =
      some ⟨m, if m.args.model = ModelName.sup then m.dict.labelCounts
               else m.dict.wordCounts⟩ := by
    rcases m with ⟨a, d, inp, out⟩
    have hlast : matLoad (matSave out) = some (out, []) := by
      simpa using matLoad_roundtrip out []
    simp [saveModel, loadModel, List.append_assoc,
      argsLoad_roundtrip a (dictSave d ++ (matSave inp ++ matSave out)),
      dictLoad_roundtrip d (matSave inp ++ matSave out),
      matLoad_roundtrip inp (matSave out), hlast]
  refine ⟨rfl, hload, ?_⟩
  intro ld hld w
  rw [hload] at hld
  injection hld with h
  rw [← h]

end FastTextSpec
